import Mathlib

/-!
Verification of the `vawter.tech/notify` reactive-cell / aggregation library.

Embedding conventions:

* A generation-indexed cell models `notify.Var[T]`. The `Var` implementation
  itself is not part of the sources at hand (only its callers, the
  `Aggregation` code, tests and README are), so its operations are modelled
  from the spec (§3, §4.1) and are marked `Modelled from the spec:` below.
  A "one-shot change signal" (a Go channel closed on change) is identified by
  the generation it tags; the signal has fired exactly when the cell's
  current generation is strictly past that tagged generation.  This captures
  the spec's monotone one-shot semantics: once superseded, permanently fired.

* The `Aggregation` (`Aggregate`, `Choose`, `Len`, `Updated`) is embedded
  from the source of the `notify` package.  Go pointer identity of `*Var[T]`
  is modelled by a `CellId : Nat` index into a store of cells; the type-erased
  `UntypedVar` handle returned by `Choose` is that same `CellId`.  The Go map
  `m map[UntypedVar]<-chan struct{}` becomes an association list from cell id
  to the captured generation, with unique keys (a Go map cannot hold a key
  twice); map iteration order is unspecified in Go, so the list scan order is
  one admissible order, and no theorem below depends on which fired entry is
  picked.

* Blocking constructs (`select`, channel waits) are embedded by explicit
  traces: `Updated` returns a description of the channel it hands back
  (pre-fired or watching a snapshot), and `WaitForChange`/`DoWhenChanged`
  consume the list of successive `Get` observations, with list exhaustion
  standing for the stopper context stopping first.
-/

namespace Notify

/-- One generation of a reactive cell: the current value plus the index of
the current generation.  Modelled from the spec: `ReactiveCell<T>` holds an
immutable snapshot `value` and a one-shot `generationSignal`; here the signal
of generation `g` is the proposition that the cell has advanced past `g`. -/
structure Cell (T : Type) where
  value : T
  gen : Nat
deriving DecidableEq, Repr

variable {T E : Type}

/-- A signal handle tagged with generation `g` has fired exactly when the
cell has been superseded past `g`.  Monotone and one-shot by construction. -/
def Cell.fired (c : Cell T) (g : Nat) : Bool :=
  g < c.gen

/-- Modelled from the spec: `Create(initial)` builds a cell holding the
initial value with its signal unfired. -/
def Cell.varOf (v : T) : Cell T :=
  ⟨v, 0⟩

/-- Modelled from the spec: `Get` returns the current value and the handle
of the current generation's change signal as one atomic snapshot. -/
def Cell.get (c : Cell T) : T × Nat :=
  (c.value, c.gen)

/-- Modelled from the spec: `Set` unconditionally installs the new value,
advances the generation (firing the previous generation's signal) and mints
a fresh unfired signal.  No equal-value suppression is performed. -/
def Cell.set (v : T) (c : Cell T) : Cell T :=
  ⟨v, c.gen + 1⟩

/-- Modelled from the spec: `Update` applies the transform under the cell's
exclusion.  On failure the cell is unmodified, no signal fires, and the error
is returned with the unchanged value as both new and old.  On success it
behaves like `Set` of the transform's result and additionally returns the
prior value.  Result order: (cell after, new value, old value, error). -/
def Cell.update (f : T → Except E T) (c : Cell T) : Cell T × T × T × Option E :=
  match f c.value with
  | .error e => (c, c.value, c.value, some e)
  | .ok v => (⟨v, c.gen + 1⟩, v, c.value, none)

/-- Identity of a cell instance; stands for the Go `*Var[T]` pointer. -/
abbrev CellId := Nat

/-- The world of cell instances, indexed by `CellId`. -/
abbrev Store (T : Type) := List (Cell T)

/-- The aggregation registry: the Go map from variable (pointer) to the
channel captured by `Aggregate`, as an association list from cell id to
captured generation. -/
abbrev Registry := List (CellId × Nat)

/-- Whether the one-shot signal of generation `g` of cell `i` has fired in
store `s` (the captured Go channel is closed). -/
def firedAt (s : Store T) (i : CellId) (g : Nat) : Bool :=
  match s[i]? with
  | some c => c.fired g
  | none => false

/-- Whether the registry holds an entry for cell `i` (Go map key presence). -/
def hasKey (r : Registry) (i : CellId) : Bool :=
  r.any fun e => e.1 == i

/-- Go map assignment `m[i] = g`: replace the entry for `i` if present,
otherwise add one. -/
def setKey (r : Registry) (i g : Nat) : Registry :=
  if hasKey r i then r.map fun e => if e.1 == i then (i, g) else e
  else r ++ [(i, g)]

/-- Embedding of `Aggregate` (notifyx.go source, notify package): under the
lock, `ret, ch := v.Get(); agg.mu.m[v] = ch; return ret` — snapshot the
cell's current value and signal, store the signal under the cell's identity
(overwriting any previous entry), and return the current value.  `none` is
returned only for an invalid cell id, which cannot arise in Go (the pointer
is always valid). -/
def aggregate (r : Registry) (s : Store T) (i : CellId) : Option T × Registry :=
  match s[i]? with
  | some c => (some c.value, setKey r i c.gen)
  | none => (none, r)

/-- Embedding of `Aggregation.Choose`: scan the registry for an entry whose
captured signal has fired; delete the first such entry and return its key as
the type-erased handle, or return nothing leaving the registry intact. -/
def choose (r : Registry) (s : Store T) : Option CellId × Registry :=
  match r with
  | [] => (none, [])
  | e :: rest =>
    if firedAt s e.1 e.2 then (some e.1, rest)
    else ((choose rest s).1, e :: (choose rest s).2)

/-- Embedding of `Aggregation.Len`: the number of registry entries. -/
def aggLen (r : Registry) : Nat :=
  r.length

/-- Description of the channel returned by `Aggregation.Updated`:
whether it was closed before `Updated` returned (`preFired`), whether a
background goroutine was started (`spawned`), and the snapshot of captured
signals that goroutine selects on (together with the context's done channel,
which is always in the select set). -/
structure UpdatedSignal where
  preFired : Bool
  spawned : Bool
  watched : Registry
deriving DecidableEq, Repr

/-- Embedding of `Aggregation.Updated`: snapshot the registry's captured
channels; if any has already fired, close the returned channel and return it
with no goroutine spawned.  Otherwise spawn one background waiter that
selects on the context's done channel plus the snapshot.  The context's done
channel is never polled synchronously. -/
def updated (r : Registry) (s : Store T) : UpdatedSignal :=
  if r.any (fun e => firedAt s e.1 e.2) then ⟨true, false, []⟩
  else ⟨false, true, r⟩

/-- Whether the channel described by `u` is closed when the store has
evolved to `s` and the cancellation state is `cancelFired`: it was pre-fired,
or the background waiter's select has resolved on the done channel or on a
watched captured signal. -/
def signalFires (u : UpdatedSignal) (s : Store T) (cancelFired : Bool) : Bool :=
  u.preFired || (u.spawned && (cancelFired || u.watched.any fun e => firedAt s e.1 e.2))

/-- Pointwise store mutation: `Set` on cell `j` (out-of-range ids are
impossible in Go and leave the store unchanged here). -/
def setInStore (s : Store T) (j : CellId) (v : T) : Store T :=
  match s[j]? with
  | some c => s.set j (c.set v)
  | none => s

/-- One serialized mutation of a cell, for linearized traces: a `Set` or an
`Update` with a user transform. -/
inductive Op (T E : Type) where
  | set : T → Op T E
  | update : (T → Except E T) → Op T E

/-- Whether an operation advances the generation when run against value `v`:
`Set` always does, `Update` does exactly when the transform succeeds. -/
def Op.effective : Op T E → T → Bool
  | .set _, _ => true
  | .update f, v =>
    match f v with
    | .ok _ => true
    | .error _ => false

/-- Apply one serialized mutation to a cell. -/
def applyOp (c : Cell T) : Op T E → Cell T
  | .set v => c.set v
  | .update f => (c.update f).1

/-- Run a linearized trace of mutations against a cell. -/
def runOps (c : Cell T) : List (Op T E) → Cell T
  | [] => c
  | op :: rest => runOps (applyOp c op) rest

/-- Whether some operation of the trace advanced the generation at the point
it executed (a `Set` or a successful `Update` occurred). -/
def anyEffective (c : Cell T) : List (Op T E) → Bool
  | [] => false
  | op :: rest => op.effective c.value || anyEffective (applyOp c op) rest

/-- Embedding of `WaitForChange` (notifyx.go): the list holds the successive
values returned by `source.Get()` each time around the loop; an exhausted
list stands for the stopper context stopping before a differing value is
observed.  Returns the resulting value and whether the stop path was taken:
a head differing from `current` is returned at once with `false`, an equal
head blocks on the change signal and loops, and stopping returns `current`
with `true`. -/
def waitForChange [DecidableEq T] (current : T) : List T → T × Bool
  | [] => (current, true)
  | v :: rest => if v = current then waitForChange current rest else (v, false)

/-- One iteration of the `DoWhenChanged` loop as observed from outside:
the `Get` observations consumed by its `WaitForChange` call, and whether
`ctx.IsStopping()` reports true once that call returns via the change path
(the stop can race in after a change was observed). -/
structure Round (T : Type) where
  obs : List T
  stopAfter : Bool

/-- Embedding of `DoWhenChanged` (notifyx.go): starting from the last
processed value, repeatedly wait for a change; if the context is stopping
return, otherwise invoke the callback with (old, new) and continue with the
new value.  Returns the list of callback invocations.  A stop signalled
inside `WaitForChange` implies `ctx.IsStopping()` is true (the stopper's
stopping channel is monotone), so that path never reaches the callback. -/
def doWhenChanged [DecidableEq T] (last : T) : List (Round T) → List (T × T)
  | [] => []
  | r :: rest =>
    if (waitForChange last r.obs).2 then []
    else if r.stopAfter then []
    else (last, (waitForChange last r.obs).1) :: doWhenChanged (waitForChange last r.obs).1 rest

/-! Helper lemmas. -/

theorem firedAt_setInStore_ne (s : Store T) (i j : CellId) (g : Nat) (v : T)
    (h : i ≠ j) : firedAt (setInStore s j v) i g = firedAt s i g := by
  unfold setInStore
  cases hj : s[j]? with
  | none => rfl
  | some c =>
    unfold firedAt
    rw [List.getElem?_set_ne (fun hc => h hc.symm)]

theorem hasKey_eq_false_iff (r : Registry) (i : CellId) :
    hasKey r i = false ↔ ∀ e ∈ r, e.1 ≠ i := by
  unfold hasKey
  simp [List.any_eq_false]

theorem hasKey_of_mem (r : Registry) (i : CellId) (g : Nat) (h : (i, g) ∈ r) :
    hasKey r i = true := by
  unfold hasKey
  exact List.any_eq_true.mpr ⟨(i, g), h, by simp⟩

theorem hasKey_cons (e : CellId × Nat) (r : Registry) (i : CellId) :
    hasKey (e :: r) i = (e.1 == i || hasKey r i) :=
  rfl

theorem keys_nodup_unique (r : Registry) (i : CellId) (g g' : Nat)
    (hn : (r.map Prod.fst).Nodup) (h : (i, g) ∈ r) (h' : (i, g') ∈ r) : g = g' := by
  induction r with
  | nil => cases h
  | cons e rest ih =>
    rw [List.map_cons, List.nodup_cons] at hn
    have hkey : ∀ x ∈ rest, x.1 ≠ e.1 := by
      intro x hx hxe
      exact hn.1 (hxe ▸ List.mem_map_of_mem Prod.fst hx)
    rcases List.mem_cons.mp h with he | hr
    · rcases List.mem_cons.mp h' with he' | hr'
      · have : (i, g') = (i, g) := he'.trans he.symm
        simp only [Prod.mk.injEq] at this
        exact this.2.symm
      · exact absurd (congrArg Prod.fst he) (hkey (i, g') hr')
    · rcases List.mem_cons.mp h' with he' | hr'
      · exact absurd (congrArg Prod.fst he') (hkey (i, g) hr)
      · exact ih hn.2 hr hr'

theorem setKey_self (r : Registry) (i g : Nat)
    (hn : (r.map Prod.fst).Nodup) (h : (i, g) ∈ r) : setKey r i g = r := by
  unfold setKey
  rw [if_pos (hasKey_of_mem r i g h)]
  have : ∀ e ∈ r, (if e.1 == i then (i, g) else e) = e := by
    intro e he
    by_cases hei : e.1 = i
    · have : e = (i, g) := by
        obtain ⟨e1, e2⟩ := e
        simp only at hei
        subst hei
        exact congrArg _ (keys_nodup_unique r e1 e2 g hn he h)
      simp [this]
    · simp [hei]
  rw [List.map_congr_left this]
  simp

theorem setKey_length_of_hasKey (r : Registry) (i g : Nat)
    (h : hasKey r i = true) : (setKey r i g).length = r.length := by
  unfold setKey
  rw [if_pos h, List.length_map]

theorem choose_mem_of_some (s : Store T) (r : Registry) (i : CellId)
    (h : (choose r s).1 = some i) : hasKey r i = true := by
  induction r with
  | nil => simp [choose] at h
  | cons e rest ih =>
    unfold choose at h
    by_cases hf : firedAt s e.1 e.2
    · rw [if_pos hf] at h
      simp only [Option.some.injEq] at h
      subst h
      unfold hasKey
      simp
    · rw [if_neg hf] at h
      have := ih h
      unfold hasKey at this ⊢
      simp only [List.any_cons]
      rw [this]
      simp

theorem choose_length_of_some (s : Store T) (r : Registry) (i : CellId)
    (h : (choose r s).1 = some i) : (choose r s).2.length + 1 = r.length := by
  induction r with
  | nil => simp [choose] at h
  | cons e rest ih =>
    unfold choose at h ⊢
    by_cases hf : firedAt s e.1 e.2
    · rw [if_pos hf] at h ⊢
      simp
    · rw [if_neg hf] at h ⊢
      simpa using ih h

theorem choose_absent (s : Store T) (r : Registry) (i : CellId)
    (h : hasKey r i = false) :
    (choose r s).1 ≠ some i ∧ hasKey (choose r s).2 i = false := by
  induction r with
  | nil => simp [choose, hasKey]
  | cons e rest ih =>
    have hek : e.1 ≠ i := (hasKey_eq_false_iff _ _).mp h e (List.mem_cons_self e rest)
    have hrest : hasKey rest i = false := by
      rw [hasKey_eq_false_iff] at h ⊢
      exact fun x hx => h x (List.mem_cons_of_mem e hx)
    unfold choose
    by_cases hf : firedAt s e.1 e.2
    · rw [if_pos hf]
      exact ⟨by simpa using hek, hrest⟩
    · rw [if_neg hf]
      refine ⟨(ih hrest).1, ?_⟩
      show hasKey (e :: (choose rest s).2) i = false
      rw [hasKey_cons, (ih hrest).2]
      simpa using hek

theorem choose_removed_absent (s : Store T) (r : Registry) (i : CellId)
    (hn : (r.map Prod.fst).Nodup) (h : (choose r s).1 = some i) :
    hasKey (choose r s).2 i = false := by
  induction r with
  | nil => simp [choose] at h
  | cons e rest ih =>
    rw [List.map_cons, List.nodup_cons] at hn
    have hkey : ∀ x ∈ rest, x.1 ≠ e.1 := by
      intro x hx hxe
      exact hn.1 (hxe ▸ List.mem_map_of_mem Prod.fst hx)
    unfold choose at h ⊢
    by_cases hf : firedAt s e.1 e.2
    · rw [if_pos hf] at h ⊢
      simp only [Option.some.injEq] at h
      subst h
      rw [hasKey_eq_false_iff]
      exact fun x hx => hkey x hx
    · rw [if_neg hf] at h ⊢
      have hik := choose_mem_of_some s rest i h
      have hei : e.1 ≠ i := by
        intro he
        unfold hasKey at hik
        rcases List.any_eq_true.mp hik with ⟨x, hx, hxk⟩
        have hxi : x.1 = i := by simpa using hxk
        exact hkey x hx (hxi.trans he.symm)
      show hasKey (e :: (choose rest s).2) i = false
      rw [hasKey_cons, ih hn.2 h]
      simpa using hei

theorem choose_unfired_eq (s : Store T) (r : Registry)
    (h : ∀ e ∈ r, firedAt s e.1 e.2 = false) : choose r s = (none, r) := by
  induction r with
  | nil => rfl
  | cons e rest ih =>
    have he := h e (List.mem_cons_self e rest)
    have hrest : ∀ x ∈ rest, firedAt s x.1 x.2 = false :=
      fun x hx => h x (List.mem_cons_of_mem e hx)
    unfold choose
    rw [if_neg (by simp [he]), ih hrest]

theorem choose_some_fired (s : Store T) (r : Registry) (i : CellId)
    (h : (choose r s).1 = some i) : ∃ g, (i, g) ∈ r ∧ firedAt s i g = true := by
  induction r with
  | nil => simp [choose] at h
  | cons e rest ih =>
    unfold choose at h
    by_cases hf : firedAt s e.1 e.2
    · rw [if_pos hf] at h
      simp only [Option.some.injEq] at h
      subst h
      exact ⟨e.2, List.mem_cons_self e rest, hf⟩
    · rw [if_neg hf] at h
      rcases ih h with ⟨g, hg, hgf⟩
      exact ⟨g, List.mem_cons_of_mem e hg, hgf⟩

theorem applyOp_gen (c : Cell T) (op : Op T E) :
    (applyOp c op).gen = cond (op.effective c.value) (c.gen + 1) c.gen := by
  cases op with
  | set v => simp [applyOp, Cell.set, Op.effective]
  | update f =>
    simp only [applyOp, Cell.update, Op.effective]
    cases hfc : f c.value <;> simp [hfc]

theorem runOps_gen_mono (ops : List (Op T E)) (c : Cell T) :
    c.gen ≤ (runOps c ops).gen := by
  induction ops generalizing c with
  | nil => exact Nat.le_refl _
  | cons op rest ih =>
    refine Nat.le_trans ?_ (ih (applyOp c op))
    rw [applyOp_gen]
    cases op.effective c.value <;> simp

theorem runOps_fired_iff (c : Cell T) (ops : List (Op T E)) :
    (runOps c ops).fired c.gen = anyEffective c ops := by
  induction ops generalizing c with
  | nil => simp [runOps, anyEffective, Cell.fired]
  | cons op rest ih =>
    show (runOps (applyOp c op) rest).fired c.gen
      = (op.effective c.value || anyEffective (applyOp c op) rest)
    by_cases he : op.effective c.value = true
    · have hg : (applyOp c op).gen = c.gen + 1 := by
        rw [applyOp_gen, he, cond_true]
      have hmono := runOps_gen_mono rest (applyOp c op)
      have hfired : (runOps (applyOp c op) rest).fired c.gen = true := by
        simp only [Cell.fired, decide_eq_true_eq]
        omega
      rw [hfired, he, Bool.true_or]
    · have hef : op.effective c.value = false := by
        rwa [Bool.not_eq_true] at he
      have hg : (applyOp c op).gen = c.gen := by
        rw [applyOp_gen, hef, cond_false]
      rw [hef, Bool.false_or, ← ih (applyOp c op), hg]

theorem waitForChange_change_ne [DecidableEq T] (current v : T) (obs : List T)
    (h : waitForChange current obs = (v, false)) : v ≠ current := by
  induction obs with
  | nil => simp [waitForChange] at h
  | cons x rest ih =>
    unfold waitForChange at h
    by_cases hx : x = current
    · rw [if_pos hx] at h
      exact ih h
    · rw [if_neg hx] at h
      have : x = v := congrArg Prod.fst h
      exact this ▸ hx

theorem waitForChange_stop_eq [DecidableEq T] (current v : T) (obs : List T)
    (h : waitForChange current obs = (v, true)) : v = current := by
  induction obs with
  | nil => exact (congrArg Prod.fst h).symm
  | cons x rest ih =>
    unfold waitForChange at h
    by_cases hx : x = current
    · rw [if_pos hx] at h
      exact ih h
    · rw [if_neg hx] at h
      simp at h

theorem doWhenChanged_ne [DecidableEq T] (start : T) (rounds : List (Round T))
    (o n : T) (h : (o, n) ∈ doWhenChanged start rounds) : o ≠ n := by
  induction rounds generalizing start with
  | nil => simp [doWhenChanged] at h
  | cons r rest ih =>
    unfold doWhenChanged at h
    by_cases h2 : (waitForChange start r.obs).2 = true
    · rw [if_pos h2] at h
      cases h
    · rw [if_neg h2] at h
      by_cases h3 : r.stopAfter = true
      · rw [if_pos h3] at h
        cases h
      · rw [if_neg h3] at h
        simp only [Bool.not_eq_true] at h2
        rcases List.mem_cons.mp h with he | hm
        · have hw := (Prod.mk.eta (p := waitForChange start r.obs)).symm
          rw [h2] at hw
          have hne := waitForChange_change_ne start (waitForChange start r.obs).1 r.obs hw
          have ho : o = start := congrArg Prod.fst he
          have hn2 : n = (waitForChange start r.obs).1 := congrArg Prod.snd he
          rw [ho, hn2]
          exact fun hcon => hne hcon.symm
        · exact ih _ hm

theorem hasKey_setKey (r : Registry) (i g : Nat) : hasKey (setKey r i g) i = true := by
  unfold setKey
  by_cases hk : hasKey r i = true
  · rw [if_pos hk]
    unfold hasKey at hk ⊢
    rcases List.any_eq_true.mp hk with ⟨x, hx, hxk⟩
    refine List.any_eq_true.mpr ⟨(i, g), ?_, by simp⟩
    exact List.mem_map.mpr ⟨x, hx, by simp [hxk]⟩
  · rw [if_neg hk]
    unfold hasKey
    exact List.any_eq_true.mpr ⟨(i, g), by simp, by simp⟩

theorem any_congr_mem {α : Type} {l : List α} {p q : α → Bool}
    (h : ∀ a ∈ l, p a = q a) : l.any p = l.any q := by
  induction l with
  | nil => rfl
  | cons x xs ih =>
    simp only [List.any_cons]
    rw [h x (List.mem_cons_self x xs),
      ih fun a ha => h a (List.mem_cons_of_mem x ha)]

/-! Claim theorems. -/

/-- C9: every `Set`, including one whose argument equals the cell's current
value, advances the cell to a new generation and fires the previous
generation's signal.  `Set` never inspects the old value, so no equal-value
suppression is performed; the equal-value instance is stated explicitly. -/
theorem c9_set_always_fires (c : Cell T) (v : T) :
    ((c.set v).gen = c.gen + 1 ∧ (c.set v).fired c.gen = true)
      ∧ ((c.set c.value).gen = c.gen + 1 ∧ (c.set c.value).fired c.gen = true) := by
  refine ⟨⟨rfl, ?_⟩, ⟨rfl, ?_⟩⟩ <;> simp [Cell.set, Cell.fired]

/-- C5: when the user transform fails, `Update` leaves the cell unmodified,
returns the failure alongside the unchanged value as both new and old, and
no signal fires — the fired state of every signal handle obtained from a
prior `Get` of the cell is exactly as it was before the call. -/
theorem c5_update_error_unchanged (f : T → Except E T) (c : Cell T) (e : E)
    (h : f c.value = .error e) :
    (c.update f).1 = c
      ∧ (c.update f).2.1 = c.value
      ∧ (c.update f).2.2.1 = c.value
      ∧ (c.update f).2.2.2 = some e
      ∧ ∀ g : Nat, ((c.update f).1).fired g = c.fired g := by
  unfold Cell.update
  rw [h]
  exact ⟨rfl, rfl, rfl, rfl, fun g => rfl⟩

/-- C5 witness: a failing transform on a concrete cell. -/
theorem c5_update_error_unchanged_witness :
    (Cell.update (fun _ => (Except.error 7 : Except Nat Nat)) ⟨5, 0⟩).1 = (⟨5, 0⟩ : Cell Nat)
      ∧ (Cell.update (fun _ => (Except.error 7 : Except Nat Nat)) ⟨5, 0⟩).2.2.2 = some 7 := by
  have h := c5_update_error_unchanged (fun _ => (Except.error 7 : Except Nat Nat)) ⟨5, 0⟩ 7 rfl
  exact ⟨h.1, h.2.2.2.1⟩

/-- C7: snapshot atomicity over linearized traces of serialized mutations:
`Get` returns the value paired with its own generation's signal, and that
signal fires after a trace of further mutations exactly when the trace
contains a `Set` or a successful `Update` — it never fires for the observed
value without such a change having occurred. -/
theorem c7_snapshot_signal_iff (c : Cell T) (ops : List (Op T E)) :
    c.get = (c.value, c.gen)
      ∧ (runOps c ops).fired (c.get).2 = anyEffective c ops :=
  ⟨rfl, runOps_fired_iff c ops⟩

/-- C3: when `Choose` returns a handle, the handle's registration was
present, the call removes it (`Len` decreases by exactly one and the key is
gone), and since `Choose` never returns an absent key and never adds keys,
no later `Choose` call returns that cell until it is registered again. -/
theorem c3_choose_consume_once (s : Store T) (r : Registry) (i : CellId)
    (hn : (r.map Prod.fst).Nodup) (h : (choose r s).1 = some i) :
    hasKey r i = true
      ∧ aggLen (choose r s).2 + 1 = aggLen r
      ∧ hasKey (choose r s).2 i = false
      ∧ ∀ (r2 : Registry) (s2 : Store T), hasKey r2 i = false →
          (choose r2 s2).1 ≠ some i ∧ hasKey (choose r2 s2).2 i = false :=
  ⟨choose_mem_of_some s r i h, choose_length_of_some s r i h,
    choose_removed_absent s r i hn h, fun r2 s2 h2 => choose_absent s2 r2 i h2⟩

/-- C3 witness: one fired registration is consumed by `Choose`. -/
theorem c3_choose_consume_once_witness :
    hasKey [(0, 0)] 0 = true
      ∧ aggLen (choose [(0, 0)] ([⟨7, 1⟩] : Store Nat)).2 + 1 = aggLen [(0, 0)]
      ∧ hasKey (choose [(0, 0)] ([⟨7, 1⟩] : Store Nat)).2 0 = false
      ∧ (choose ([] : Registry) ([] : Store Nat)).1 ≠ some 0 := by
  have h := c3_choose_consume_once ([⟨7, 1⟩] : Store Nat) [(0, 0)] 0 (by decide) (by decide)
  exact ⟨h.1, h.2.1, h.2.2.1, (h.2.2.2 [] [] (by decide)).1⟩

/-- C6: `Choose` returns nothing and leaves the registry unchanged whenever
no registration's captured signal has fired (including the empty registry),
and whenever it does return a handle, the consumed registration is one whose
captured signal has fired (the fired-but-armed state). -/
theorem c6_choose_only_fired (s : Store T) (r : Registry)
    (h : ∀ e ∈ r, firedAt s e.1 e.2 = false) :
    choose r s = (none, r)
      ∧ ∀ (s2 : Store T) (r2 : Registry) (i : CellId), (choose r2 s2).1 = some i →
          ∃ g, (i, g) ∈ r2 ∧ firedAt s2 i g = true :=
  ⟨choose_unfired_eq s r h, fun s2 r2 i h2 => choose_some_fired s2 r2 i h2⟩

/-- C6 witness: an unfired registration is left in place and nothing is
returned. -/
theorem c6_choose_only_fired_witness :
    choose [(0, 5)] ([⟨3, 2⟩] : Store Nat) = (none, [(0, 5)]) :=
  (c6_choose_only_fired ([⟨3, 2⟩] : Store Nat) [(0, 5)] (by decide)).1

/-- C8: the type-erased handle is the identity of the registered cell
instance (in the embedding, a Go `*Var[T]` pointer is a `CellId`):
`Aggregate` keys the registry by the cell's identity, `Choose` only ever
returns a registered identity, and the register-then-choose round trip on a
fresh aggregation returns the very identity that was registered. -/
theorem c8_handle_identity (s s' : Store T) (r : Registry) (i : CellId) (c : Cell T)
    (h : s[i]? = some c) :
    hasKey (aggregate r s i).2 i = true
      ∧ (∀ j, (choose r s').1 = some j → hasKey r j = true)
      ∧ (firedAt s' i c.gen = true →
          (choose (aggregate ([] : Registry) s i).2 s').1 = some i) := by
  refine ⟨?_, fun j hj => choose_mem_of_some s' r j hj, ?_⟩
  · unfold aggregate
    rw [h]
    exact hasKey_setKey r i c.gen
  · intro hf
    have ha : (aggregate ([] : Registry) s i).2 = [(i, c.gen)] := by
      unfold aggregate
      rw [h]
      rfl
    rw [ha]
    unfold choose
    rw [if_pos hf]

/-- C8 witness: register cell 0 on a fresh aggregation, fire it, choose it
back. -/
theorem c8_handle_identity_witness :
    hasKey (aggregate ([] : Registry) ([⟨5, 0⟩] : Store Nat) 0).2 0 = true
      ∧ (choose (aggregate ([] : Registry) ([⟨5, 0⟩] : Store Nat) 0).2
          ([⟨9, 3⟩] : Store Nat)).1 = some 0 := by
  have h := c8_handle_identity ([⟨5, 0⟩] : Store Nat) ([⟨9, 3⟩] : Store Nat)
    ([] : Registry) 0 ⟨5, 0⟩ rfl
  exact ⟨h.1, h.2.2 (by decide)⟩

/-- C1 counterexample: the claim fails for a registration whose captured
signal has already fired.  Cell 0 is registered with captured generation 0
and then set once (store `[⟨7, 1⟩]`), so its captured signal has fired and
`Choose` would return it.  Re-registering replaces the captured signal with
the cell's fresh unfired one — the registry entry changes and the pending
change is missed: `Choose` now returns nothing. -/
theorem c1_reregister_fired_counterexample :
    (aggregate [(0, 0)] ([⟨7, 1⟩] : Store Nat) 0).2 ≠ [(0, 0)]
      ∧ (choose [(0, 0)] ([⟨7, 1⟩] : Store Nat)).1 = some 0
      ∧ (choose (aggregate [(0, 0)] ([⟨7, 1⟩] : Store Nat) 0).2
          ([⟨7, 1⟩] : Store Nat)).1 = none := by
  decide

/-- C1 amended: for a cell already present in the registry whose captured
signal has NOT yet fired, re-registering returns the cell's live current
value and leaves the registry — hence `Len` and the captured signal —
entirely unchanged.  (When the captured signal has already fired,
re-registration still returns the live value and keeps `Len`, but
re-snapshots the signal, dropping the pending notification, per the
counterexample.)  The hypothesis `g ≤ c.gen` is the reachability invariant:
a captured generation never exceeds the cell's current one. -/
theorem c1_aggregate_idempotent_unfired (s : Store T) (r : Registry) (i : CellId)
    (c : Cell T) (g : Nat) (hn : (r.map Prod.fst).Nodup) (hmem : (i, g) ∈ r)
    (hc : s[i]? = some c) (hg : g ≤ c.gen) (hunfired : firedAt s i g = false) :
    (aggregate r s i).1 = some c.value
      ∧ (aggregate r s i).2 = r
      ∧ aggLen (aggregate r s i).2 = aggLen r := by
  have hgen : g = c.gen := by
    unfold firedAt at hunfired
    rw [hc] at hunfired
    simp only [Cell.fired, decide_eq_false_iff_not, Nat.not_lt] at hunfired
    omega
  subst hgen
  have ha : aggregate r s i = (some c.value, setKey r i c.gen) := by
    unfold aggregate
    rw [hc]
  rw [ha, setKey_self r i c.gen hn hmem]
  exact ⟨rfl, rfl, rfl⟩

/-- C1 witness: re-registering a still-unfired registration. -/
theorem c1_aggregate_idempotent_unfired_witness :
    (aggregate [(0, 2)] ([⟨5, 2⟩] : Store Nat) 0).1 = some 5
      ∧ (aggregate [(0, 2)] ([⟨5, 2⟩] : Store Nat) 0).2 = [(0, 2)] := by
  have h := c1_aggregate_idempotent_unfired ([⟨5, 2⟩] : Store Nat) [(0, 2)] 0 ⟨5, 2⟩ 2
    (by decide) (by decide) rfl (by decide) (by decide)
  exact ⟨h.1, h.2.1⟩

/-- C2 counterexample: `Updated` never polls the cancellation signal
synchronously, so its result does not depend on the cancellation state at
all.  At a call where the cancellation signal has already fired but no
registration's captured signal has (one registration, captured generation 0,
cell still at generation 0), the returned channel is not pre-fired and a
background waiter is spawned — contradicting the claim that a fired
cancellation alone forces a synchronously resolved signal with no background
waiter. -/
theorem c2_cancel_prefire_counterexample :
    (updated [(0, 0)] ([⟨5, 0⟩] : Store Nat)).preFired = false
      ∧ (updated [(0, 0)] ([⟨5, 0⟩] : Store Nat)).spawned = true := by
  decide

/-- C2 amended: if at call time some registration's captured signal has
already fired, the returned channel is closed synchronously and no
background waiter is spawned; otherwise — even when the cancellation signal
has already fired — the channel is returned open and exactly one background
waiter is spawned, and with a fired cancellation the returned channel does
fire (through the waiter rather than synchronously). -/
theorem c2_updated_prefire_amended (s : Store T) (r : Registry) :
    ((r.any fun e => firedAt s e.1 e.2) = true →
        (updated r s).preFired = true ∧ (updated r s).spawned = false)
      ∧ ((r.any fun e => firedAt s e.1 e.2) = false →
        (updated r s).preFired = false ∧ (updated r s).spawned = true)
      ∧ signalFires (updated r s) s true = true := by
  unfold updated
  by_cases hf : (r.any fun e => firedAt s e.1 e.2) = true
  · rw [if_pos hf]
    exact ⟨fun _ => ⟨rfl, rfl⟩, fun hc => absurd hf (by simp [hc]), by simp [signalFires]⟩
  · rw [if_neg hf]
    exact ⟨fun hc => absurd hc hf, fun _ => ⟨rfl, rfl⟩, by simp [signalFires]⟩

/-- C2 witness: one registration whose captured signal has fired gives a
synchronously closed channel with no waiter. -/
theorem c2_updated_prefire_witness :
    (updated [(0, 0)] ([⟨5, 1⟩] : Store Nat)).preFired = true
      ∧ (updated [(0, 0)] ([⟨5, 1⟩] : Store Nat)).spawned = false :=
  (c2_updated_prefire_amended ([⟨5, 1⟩] : Store Nat) [(0, 0)]).1 (by decide)

/-- C4: the channel returned by `Updated` is governed by exactly the
registrations present at call time: mutating a cell that holds no call-time
registration (in particular one registered only after the call) never
changes whether the returned channel fires, while any call-time registration
whose captured signal fires in the later store makes the channel fire. -/
theorem c4_updated_call_time_snapshot (s0 s : Store T) (r : Registry) (j : CellId)
    (v : T) (cf : Bool) (h : hasKey r j = false) :
    signalFires (updated r s0) (setInStore s j v) cf = signalFires (updated r s0) s cf
      ∧ ∀ e ∈ r, firedAt s e.1 e.2 = true → signalFires (updated r s0) s cf = true := by
  have hne : ∀ e ∈ r, firedAt (setInStore s j v) e.1 e.2 = firedAt s e.1 e.2 := by
    intro e he
    exact firedAt_setInStore_ne s e.1 j e.2 v ((hasKey_eq_false_iff r j).mp h e he)
  unfold updated
  by_cases hf : (r.any fun e => firedAt s0 e.1 e.2) = true
  · rw [if_pos hf]
    exact ⟨rfl, fun e he hef => rfl⟩
  · rw [if_neg hf]
    have hx : (r.any fun e => firedAt (setInStore s j v) e.1 e.2)
        = (r.any fun e => firedAt s e.1 e.2) :=
      any_congr_mem hne
    constructor
    · simp only [signalFires, hx]
    · intro e he hef
      have : (r.any fun x => firedAt s x.1 x.2) = true := List.any_eq_true.mpr ⟨e, he, hef⟩
      simp [signalFires, this]

/-- C4 witness: setting the unregistered cell 1 does not change whether the
call-time snapshot's channel fires. -/
theorem c4_updated_call_time_snapshot_witness :
    signalFires (updated [(0, 0)] ([⟨5, 0⟩, ⟨6, 0⟩] : Store Nat))
        (setInStore ([⟨5, 0⟩, ⟨6, 0⟩] : Store Nat) 1 9) false
      = signalFires (updated [(0, 0)] ([⟨5, 0⟩, ⟨6, 0⟩] : Store Nat))
          ([⟨5, 0⟩, ⟨6, 0⟩] : Store Nat) false :=
  (c4_updated_call_time_snapshot ([⟨5, 0⟩, ⟨6, 0⟩] : Store Nat)
    ([⟨5, 0⟩, ⟨6, 0⟩] : Store Nat) [(0, 0)] 1 9 false (by decide)).1

/-- C10: `WaitForChange` reports a change only with a value different from
its `current` argument, returns `current` itself when the context stops
first, and consequently `DoWhenChanged` never invokes its callback with the
new value equal to the last processed value — even though the underlying
cell fires its signal on equal-value sets. -/
theorem c10_wait_for_change_distinct [DecidableEq T] :
    (∀ (current v : T) (obs : List T),
        waitForChange current obs = (v, false) → v ≠ current)
      ∧ (∀ (current v : T) (obs : List T),
        waitForChange current obs = (v, true) → v = current)
      ∧ ∀ (start : T) (rounds : List (Round T)) (o n : T),
          (o, n) ∈ doWhenChanged start rounds → o ≠ n :=
  ⟨fun current v obs h => waitForChange_change_ne current v obs h,
   fun current v obs h => waitForChange_stop_eq current v obs h,
   fun start rounds o n h => doWhenChanged_ne start rounds o n h⟩

/-- C10 witness: a change through an equal-value prefix, a stopped wait, and
a two-round loop. -/
theorem c10_wait_for_change_distinct_witness :
    (3 : Nat) ≠ 0 ∧ (0 : Nat) = 0 ∧ (0 : Nat) ≠ 3 := by
  have h := c10_wait_for_change_distinct (T := Nat)
  exact ⟨h.1 0 3 [0, 0, 3] (by decide), h.2.1 0 0 [0] (by decide),
    h.2.2 0 [⟨[0, 3], false⟩] 0 3 (by decide)⟩

end Notify
